import Mathlib

/-!
Verification development for the issue-sync tool in src/gh-sync.mjs.

The JavaScript source is shallowly embedded: JS strings are Lean Strings
(manipulated through their character lists), JSON values are an inductive
type, JS objects are association lists in insertion order (JS object
literals and spreads preserve insertion order and overwrite values of
existing keys in place), and the issues directory is an association list
from file name to file content.  Character-level models of the JS builtins
used by the source (toLowerCase, trim, endsWith, the regexes of slugify
and findIssueFiles) cover the ASCII behaviour the tool relies on.
-/

namespace GhSync

/-- Model of the JS String.prototype.toLowerCase on one character
(ASCII range, which is all the source relies on): code points 65-90
are shifted by 32, everything else is returned unchanged. -/
def lowerChar (c : Char) : Char :=
  if 65 ≤ c.toNat ∧ c.toNat ≤ 90 then Char.ofNat (c.toNat + 32) else c

/-- Model of JS toLowerCase on a whole string. -/
def lowerStr (s : String) : String :=
  ⟨s.data.map lowerChar⟩

/-- Whitespace stripped by JS String.prototype.trim (ASCII part). -/
def jsIsWs (c : Char) : Bool :=
  c == ' ' || c == '\t' || c == '\n' || c == '\x0d' ||
  c == '\x0b' || c == '\x0c'

/-- Both-ends trim on character lists, the core of JS trim. -/
def trimChars (l : List Char) : List Char :=
  ((l.dropWhile jsIsWs).reverse.dropWhile jsIsWs).reverse

/-- Model of JS String.prototype.trim. -/
def jsTrim (s : String) : String :=
  ⟨trimChars s.data⟩

/-- Characters the slugify regex [^a-z0-9] keeps. -/
def isLowerAlnum (c : Char) : Bool :=
  (97 ≤ c.toNat && c.toNat ≤ 122) || (48 ≤ c.toNat && c.toNat ≤ 57)

/-- Model of the global replace of /[^a-z0-9]+/ by a hyphen: the flag
records whether the scanner is inside a run of replaced characters, so
each maximal run emits exactly one hyphen. -/
def collapseAux : Bool → List Char → List Char
  | _, [] => []
  | inRun, c :: rest =>
    if isLowerAlnum c then c :: collapseAux false rest
    else if inRun then collapseAux true rest
    else '-' :: collapseAux true rest

/-- Replace every run of non-alphanumeric characters by one hyphen,
as the regex replace /[^a-z0-9]+/g does. -/
def collapseNonAlnum (l : List Char) : List Char :=
  collapseAux false l

/-- Index of the first right bracket, the position where the lazy
quantifier of the tag regex stops. -/
def idxOfRBracket : List Char → Option Nat
  | [] => none
  | c :: rest => if c = ']' then some 0 else (idxOfRBracket rest).map (· + 1)

/-- Fuel-indexed scanner for the global lazy regex /\[.*?\]/ replaced by
the empty string: at a left bracket, the match extends to the nearest
right bracket (the dot of the regex does not cross the end of the input,
and without a closing bracket there is no match at all, so the rest of
the input is kept verbatim).  The fuel only serves structural recursion;
stripTags supplies the length of the input, which one fuel unit per
consumed character makes sufficient. -/
def stripTagsFuel : Nat → List Char → List Char
  | 0, l => l
  | fuel + 1, l =>
    match l with
    | [] => []
    | c :: rest =>
      if c = '[' then
        match idxOfRBracket rest with
        | some i => stripTagsFuel fuel (rest.drop (i + 1))
        | none => c :: rest
      else c :: stripTagsFuel fuel rest

/-- Remove every (lazily matched) bracketed tag group, as the source's
title.replace of the regex with the empty string. -/
def stripTags (l : List Char) : List Char :=
  stripTagsFuel l.length l

/-- Remove the final character when it is a hyphen: the -$ alternative of
the final replace in slugify. -/
def removeTrailingHyphen : List Char → List Char
  | [] => []
  | [c] => if c = '-' then [] else [c]
  | c :: rest => c :: removeTrailingHyphen rest

/-- The final replace of /^-|-$/g by the empty string: one leading and
one trailing hyphen are removed (its input, coming out of the run
collapse, never carries two adjacent hyphens). -/
def stripEdgeHyphens (l : List Char) : List Char :=
  removeTrailingHyphen (if l.head? = some '-' then l.tail else l)

/-- Model of the source's slugify: lower-case, strip bracketed tag
groups, trim, collapse non-alphanumeric runs to single hyphens, strip
leading and trailing hyphens - in exactly the order the code chains the
string methods. -/
def slugify (title : String) : String :=
  ⟨stripEdgeHyphens (collapseNonAlnum (trimChars (stripTags (title.data.map lowerChar))))⟩

/-- The same pipeline in the order the specification words it: strip the
bracketed groups, trim, lower-case, collapse, strip edge hyphens.  Used
to compare the code order against the specified order. -/
def slugifySpec (title : String) : String :=
  ⟨stripEdgeHyphens (collapseNonAlnum ((trimChars (stripTags title.data)).map lowerChar))⟩

/-! JSON values and JS objects in insertion order. -/

/-- JSON values as they appear in the metadata files and in the payloads
of the external command. -/
inductive Json where
  | null : Json
  | bool (b : Bool) : Json
  | num (n : Int) : Json
  | str (s : String) : Json
  | arr (xs : List Json) : Json
  | obj (kvs : List (String × Json)) : Json

/-- A JS object: keys with values, in insertion order. -/
abbrev JsonObj := List (String × Json)

/-- JS truthiness of a JSON value (objects and arrays are always truthy,
the empty string, zero and null are falsy). -/
def jsTruthy : Json → Bool
  | .null => false
  | .bool b => b
  | .num n => n != 0
  | .str s => s != ""
  | .arr _ => true
  | .obj _ => true

/-- Property lookup on an association list (first occurrence); an absent
key models a JS undefined read. -/
def alookup {α : Type} : List (String × α) → String → Option α
  | [], _ => none
  | e :: rest, k => if e.1 == k then some e.2 else alookup rest k

/-- Property assignment with JS object semantics: an existing key keeps
its position and gets the new value, a new key is appended. -/
def upsert {α : Type} : List (String × α) → String → α → List (String × α)
  | [], k, v => [(k, v)]
  | e :: rest, k, v => if e.1 == k then (k, v) :: rest else e :: upsert rest k v

/-- Extract the strings of a JSON array of strings (the shape the tool
stores under the labels key). -/
def toStrList : Json → List String
  | .arr xs => xs.filterMap (fun j => match j with | .str s => some s | _ => none)
  | _ => []

/-- Ordered insertion into a list of strings. -/
def sortInsert (s : String) : List String → List String
  | [] => [s]
  | t :: rest => if s ≤ t then s :: t :: rest else t :: sortInsert s rest

/-- JS Array.prototype.sort() on an array of strings (lexicographic
default comparator).  String equality is syntactic, so the sorted result
is the unique non-decreasing permutation and insertion sort produces
exactly what the engine's sort produces. -/
def jsSortStrs (l : List String) : List String :=
  l.foldr sortInsert []

/-! Serialization: JSON.stringify(data, null, 2), modelled character by
character so that written file contents are concrete strings. -/

/-- Lower-case hex digit. -/
def hexDigit (n : Nat) : Char :=
  if n < 10 then Char.ofNat (48 + n) else Char.ofNat (87 + n)

/-- JSON string escaping of one character, as JSON.stringify performs. -/
def escChar (c : Char) : List Char :=
  if c = '"' then ['\\', '"']
  else if c = '\\' then ['\\', '\\']
  else if c = '\n' then ['\\', 'n']
  else if c = '\t' then ['\\', 't']
  else if c = '\x0d' then ['\\', 'r']
  else if c = '\x08' then ['\\', 'b']
  else if c = '\x0c' then ['\\', 'f']
  else if c.toNat < 32 then
    ['\\', 'u', '0', '0', hexDigit (c.toNat / 16), hexDigit (c.toNat % 16)]
  else [c]

/-- A JSON string literal with quotes and escapes. -/
def jsonQuote (s : String) : String :=
  "\"" ++ ⟨s.data.foldr (fun c acc => escChar c ++ acc) []⟩ ++ "\""

/-- A run of spaces, for the two-space indentation of the writer. -/
def spaces (n : Nat) : String :=
  ⟨List.replicate n ' '⟩

/-- Join pieces with a separator. -/
def joinSep (sep : String) : List String → String
  | [] => ""
  | [x] => x
  | x :: rest => x ++ sep ++ joinSep sep rest

mutual

/-- Pretty printer of JSON.stringify(-, null, 2) at an indentation. -/
def renderJson (ind : Nat) : Json → String
  | .null => "null"
  | .bool b => if b then "true" else "false"
  | .num n => toString n
  | .str s => jsonQuote s
  | .arr [] => "[]"
  | .arr xs =>
    "[\n" ++ joinSep ",\n" (renderItems (ind + 2) xs) ++
      "\n" ++ spaces ind ++ "]"
  | .obj [] => "\x7b\x7d"
  | .obj kvs =>
    "\x7b\n" ++ joinSep ",\n" (renderPairs (ind + 2) kvs) ++
      "\n" ++ spaces ind ++ "\x7d"

/-- The indented lines of the elements of an array. -/
def renderItems (ind : Nat) : List Json → List String
  | [] => []
  | x :: xs => (spaces ind ++ renderJson ind x) :: renderItems ind xs

/-- The indented lines of the properties of an object. -/
def renderPairs (ind : Nat) : List (String × Json) → List String
  | [] => []
  | kv :: rest =>
    (spaces ind ++ jsonQuote kv.1 ++ ": " ++ renderJson ind kv.2) :: renderPairs ind rest

end

/-- The bytes writeJson puts into a metadata file:
JSON.stringify(data, null, 2) + a final newline. -/
def writeJsonContent (o : JsonObj) : String :=
  renderJson 0 (Json.obj o) ++ "\n"

/-- The endsWith test of writeMd: whether the last character is a
newline. -/
def jsEndsWithNewline (s : String) : Bool :=
  s.data.getLast? == some '\n'

/-- The bytes writeMd puts into a body file: the content itself when it
already ends with a newline, otherwise the content with one newline
appended. -/
def writeMdContent (content : String) : String :=
  if jsEndsWithNewline content then content else content ++ "\n"

/-- Length of the trailing run of newline characters of a string. -/
def trailingNewlines (s : String) : Nat :=
  (s.data.reverse.takeWhile (fun c => c == '\n')).length

/-! The issues directory.  Files live flat in one directory, so entries
are keyed by file name (the path prefix of CONFIG.issuesDir is common to
every access and dropped).  Metadata files hold their parsed JSON object,
body files hold text. -/

/-- Content of a file: a parsed JSON object for the metadata files the
tool writes, raw text otherwise. -/
inductive FsVal where
  | jsonVal (j : JsonObj) : FsVal
  | textVal (t : String) : FsVal

/-- The issues directory: file names with contents, in directory order
(readdirSync order); writes to an existing name keep its position. -/
abbrev Fs := List (String × FsVal)

/-- readdirSync: the file names in order. -/
def fsNames (fs : Fs) : List String :=
  fs.map Prod.fst

/-- Read a file. -/
def fsRead (fs : Fs) (p : String) : Option FsVal :=
  alookup fs p

/-- Whole-file overwrite; a new name is appended to the directory. -/
def fsWrite (fs : Fs) (p : String) (v : FsVal) : Fs :=
  upsert fs p v

/-- readFileSync as text: a file the model keeps in parsed form reads
back as its serialization. -/
def fsReadText (fs : Fs) (p : String) : Option String :=
  (fsRead fs p).map (fun v => match v with
    | .textVal t => t
    | .jsonVal j => writeJsonContent j)

/-! String helpers of file discovery. -/

/-- First match of a predicate in a list of names. -/
def findFirst (p : String → Bool) : List String → Option String
  | [] => none
  | f :: rest => if p f then some f else findFirst p rest

/-- Replace the first occurrence of a pattern, as the one-argument string
form of JS String.prototype.replace. -/
def replaceFirstL (pat rep : List Char) : List Char → List Char
  | [] => []
  | c :: rest =>
    if pat.isPrefixOf (c :: rest) then rep ++ (c :: rest).drop pat.length
    else c :: replaceFirstL pat rep rest

/-- String wrapper of replaceFirstL. -/
def replaceFirstStr (s pat rep : String) : String :=
  ⟨replaceFirstL pat.data rep.data s.data⟩

/-- Line terminators the dot of a JS regex refuses to match. -/
def isLineTerm (c : Char) : Bool :=
  c == '\n' || c == '\x0d' || c == '\u2028' || c == '\u2029'

/-- The test of the regex built in findIssueFiles,
new RegExp of ^number-.*\.json$ : the name starts with the decimal digits
of the number and a hyphen, ends in .json, and the middle crosses no line
terminator. -/
def matchesIssueJson (n : Nat) (f : String) : Bool :=
  let pre := (toString n ++ "-").data
  let l := f.data
  pre.isPrefixOf l &&
    (let rest := l.drop pre.length
     (".json".data.isSuffixOf rest &&
       (rest.take (rest.length - 5)).all (fun c => !isLineTerm c)))

/-- The replace of the regex ^\d+- by the empty string: the maximal leading
digit run together with the hyphen after it is removed when that hyphen
is there, otherwise nothing matches. -/
def stripIdPrefix (s : String) : String :=
  let ds := s.data.takeWhile Char.isDigit
  if ds ≠ [] ∧ (s.data.drop ds.length).head? = some '-' then
    ⟨s.data.drop (ds.length + 1)⟩
  else s

/-- The triple findIssueFiles returns for an issue number. -/
structure FoundFiles where
  json : String
  md : String
  slug : String

/-- findIssueFiles: the first directory entry matching the issue-number
pattern names the metadata file; the body file name replaces its first
.json by .md; the slug drops the numeric prefix and the first .json. -/
def findIssueFiles (fs : Fs) (n : Nat) : Option FoundFiles :=
  match findFirst (matchesIssueJson n) (fsNames fs) with
  | none => none
  | some jsonFile =>
    some ⟨jsonFile,
      replaceFirstStr jsonFile ".json" ".md",
      replaceFirstStr (stripIdPrefix jsonFile) ".json" ""⟩

/-! The remote snapshot and the configuration. -/

/-- A label object of the remote snapshot. -/
structure GhLabel where
  name : String

/-- An assignee object of the remote snapshot. -/
structure GhUser where
  login : String

/-- The remote issue snapshot the external command returns for
gh issue view with the fields requested by fetchIssue. -/
structure GhIssue where
  number : Int
  title : String
  state : String
  labels : List GhLabel
  assignees : List GhUser
  milestone : Option String
  body : Option String
  createdAt : String
  updatedAt : String

/-- CONFIG.repo. -/
def repoName : String := "michaelstingl/cnrz-ctt"

/-- CONFIG.localOnlyFields, in configuration order. -/
def localOnlyFields : List String :=
  ["hub_projekt", "typ", "technologie_steckbrief", "related_issues", "body_file"]

/-- The first four local-only fields; body_file, the last one, also gets
an explicit assignment after the spread in pull. -/
def localOnly4 : List String :=
  ["hub_projekt", "typ", "technologie_steckbrief", "related_issues"]

/-- The date part of an ISO timestamp: split('T')[0]. -/
def datePart (s : String) : String :=
  ⟨s.data.takeWhile (fun c => c ≠ 'T')⟩

/-- The milestone property of the merged record:
ghIssue.milestone?.title || null. -/
def milestoneVal : Option String → Json
  | some t => if t ≠ "" then .str t else .null
  | none => .null

/-- The default body file name {id}-{slug}.md. -/
def defaultBodyFile (n : Nat) (slug : String) : String :=
  toString n ++ "-" ++ slug ++ ".md"

/-- The body_file property of the merged record:
localJson.body_file || the default {id}-{slug}.md. -/
def bodyFileVal (l : JsonObj) (n : Nat) (slug : String) : Json
  :=
  match alookup l "body_file" with
  | some v => if jsTruthy v then v else .str (defaultBodyFile n slug)
  | none => .str (defaultBodyFile n slug)

/-- The seven leading remote-owned properties of the object literal that
pull builds (the literal's keys are pairwise distinct, so the literal is
exactly this list in source order). -/
def pmBase (n : Nat) (gh : GhIssue) : JsonObj :=
  [("issue_number", .num gh.number),
   ("repo", .str repoName),
   ("title", .str gh.title),
   ("state", .str (lowerStr gh.state)),
   ("labels", .arr (gh.labels.map (fun l => .str l.name))),
   ("assignees", .arr (gh.assignees.map (fun a => .str a.login))),
   ("milestone", milestoneVal gh.milestone)]

/-- The merged metadata object pull writes: the seven remote-owned
properties, then the spread of the local-only fields present in the
existing local record (in configuration order), then the explicit
body_file, created and updated properties - each property added with JS
object-literal semantics (an existing key is overwritten in place, a new
key is appended). -/
def pullMerged (n : Nat) (slug : String) (l : JsonObj) (gh : GhIssue) : JsonObj :=
  let withLocal :=
    (localOnlyFields.filter (fun f => (alookup l f).isSome)).foldl
      (fun acc f => upsert acc f ((alookup l f).getD .null)) (pmBase n gh)
  let withBf := upsert withLocal "body_file" (bodyFileVal l n slug)
  let withCreated := upsert withBf "created" (.str (datePart gh.createdAt))
  upsert withCreated "updated" (.str (datePart gh.updatedAt))

/-- The spread block of the merged record, restricted to the four fields
before body_file: those present in the local record, in configuration
order, with their local values. -/
def pmOthers (l : JsonObj) : JsonObj :=
  (localOnly4.filter (fun f => (alookup l f).isSome)).map
    (fun f => (f, (alookup l f).getD .null))

/-- The two trailing date properties of the merged record. -/
def pmDates (gh : GhIssue) : JsonObj :=
  [("created", .str (datePart gh.createdAt)), ("updated", .str (datePart gh.updatedAt))]

/-- Everything one pull invocation produces: the two file names it
writes, the contents it writes there, and the directory afterwards. -/
structure PullResult where
  jsonName : String
  mdName : String
  jsonObj : JsonObj
  mdText : String
  fsAfter : Fs

/-- One pull of one issue number against a remote snapshot (the remote
fetch is assumed to succeed and to return gh; a fetch failure aborts the
process before anything here happens).  Returns none when the found
metadata file does not hold a JSON object (JSON.parse would throw).
When no local files exist, new names are derived from the slugified
remote title; the existsSync re-check of the code is modelled by the
same lookup, which in that branch always misses, leaving the local
record empty. -/
def pullStep (fs : Fs) (n : Nat) (gh : GhIssue) : Option PullResult :=
  let mdTxt := writeMdContent (gh.body.getD "")
  match findIssueFiles fs n with
  | some files =>
    match fsRead fs files.json with
    | some (.jsonVal l) =>
      let merged := pullMerged n files.slug l gh
      some ⟨files.json, files.md, merged, mdTxt,
        fsWrite (fsWrite fs files.json (.jsonVal merged)) files.md (.textVal mdTxt)⟩
    | _ => none
  | none =>
    let slug := slugify gh.title
    let jName := toString n ++ "-" ++ slug ++ ".json"
    let mName := toString n ++ "-" ++ slug ++ ".md"
    let l : JsonObj := match fsRead fs jName with | some (.jsonVal j) => j | _ => []
    let merged := pullMerged n slug l gh
    some ⟨jName, mName, merged, mdTxt,
      fsWrite (fsWrite fs jName (.jsonVal merged)) mName (.textVal mdTxt)⟩

/-! The shell commands push, diff and status issue against the remote,
and how an invocation ends. -/

/-- A call to the external command: one edit (with its optional title
and body-file flags), a label listing, a label addition or a label
removal. -/
inductive RemoteCmd where
  | edit (n : Nat) (title : Option Json) (bodyFile : Option String) : RemoteCmd
  | viewIssue (n : Nat) : RemoteCmd
  | viewLabels (n : Nat) : RemoteCmd
  | addLabels (n : Nat) (ls : List String) : RemoteCmd
  | removeLabel (n : Nat) (l : String) : RemoteCmd

/-- Whether a remote call mutates the remote issue. -/
def isRemoteUpdate : RemoteCmd → Bool
  | .edit .. => true
  | .addLabels .. => true
  | .removeLabel .. => true
  | _ => false

/-- How an invocation ends: an explicit process.exit, an uncaught
exception (which also ends the process with a non-zero code), or normal
completion (exit code 0). -/
inductive Outcome where
  | exited (code : Nat) : Outcome
  | crashed : Outcome
  | completed : Outcome
deriving DecidableEq

/-- The labels the push path reads from the local record:
localJson.labels || [], narrowed to its strings. -/
def localLabelsOf (l : JsonObj) : List String :=
  match alookup l "labels" with
  | some v => if jsTruthy v then toStrList v else []
  | none => []

/-- The add-set syncLabels computes: target labels the remote does not
currently carry. -/
def syncLabelsToAdd (target current : List String) : List String :=
  target.filter (fun l => !current.contains l)

/-- The remove-set syncLabels computes: current remote labels absent
from the target. -/
def syncLabelsToRemove (target current : List String) : List String :=
  current.filter (fun l => !target.contains l)

/-- The remote calls syncLabels makes: list the current labels, one
add call for the whole add-set when it is nonempty, one remove call per
removed label. -/
def syncLabelsCmds (n : Nat) (target current : List String) : List RemoteCmd :=
  let toAdd := syncLabelsToAdd target current
  let toRemove := syncLabelsToRemove target current
  [RemoteCmd.viewLabels n] ++
    (if toAdd.isEmpty then [] else [RemoteCmd.addLabels n toAdd]) ++
    toRemove.map (RemoteCmd.removeLabel n)

/-- What one push invocation does: how it ends and the remote calls it
makes. -/
structure PushResult where
  outcome : Outcome
  remoteOps : List RemoteCmd

/-- One push of one issue number.  Without local files the process exits
with code 1 before any remote call.  Otherwise updateIssue always runs
the edit command - its title flag only for a truthy local title, its
body-file flag only when the body file exists - and then syncLabels
diffs against the current remote labels (taken from the snapshot gh). -/
def pushRun (fs : Fs) (n : Nat) (gh : GhIssue) : PushResult :=
  match findIssueFiles fs n with
  | none => ⟨.exited 1, []⟩
  | some files =>
    match fsRead fs files.json with
    | some (.jsonVal l) =>
      let titleOpt : Option Json :=
        match alookup l "title" with
        | some v => if jsTruthy v then some v else none
        | none => none
      let bodyOpt : Option String :=
        if (fsRead fs files.md).isSome then some files.md else none
      let target := localLabelsOf l
      let current := gh.labels.map GhLabel.name
      ⟨.completed, RemoteCmd.edit n titleOpt bodyOpt :: syncLabelsCmds n target current⟩
    | _ => ⟨.crashed, []⟩

/-- What one diff invocation does: how it ends, its remote calls, and the
in-sync verdict it prints. -/
structure DiffResult where
  outcome : Outcome
  remoteOps : List RemoteCmd
  inSync : Bool

/-- One diff of one issue number.  Without local files the process exits
with code 1; a missing body file makes readFileSync throw before the
remote fetch; otherwise the remote issue is fetched (one read-only call)
and the computed report never changes the exit code: the invocation
completes whether or not differences were found. -/
def diffRun (fs : Fs) (n : Nat) (gh : GhIssue) : DiffResult :=
  match findIssueFiles fs n with
  | none => ⟨.exited 1, [], false⟩
  | some files =>
    match fsRead fs files.json with
    | some (.jsonVal l) =>
      match fsReadText fs files.md with
      | none => ⟨.crashed, [], false⟩
      | some localMd =>
        let titleEq : Bool :=
          match alookup l "title" with
          | some (.str s) => s == gh.title
          | _ => false
        let stateEq : Bool :=
          match alookup l "state" with
          | some (.str s) => s == lowerStr gh.state
          | _ => false
        let localLabels := jsSortStrs (localLabelsOf l)
        let ghLabels := jsSortStrs (gh.labels.map GhLabel.name)
        let labelsAdded := localLabels.filter (fun x => !ghLabels.contains x)
        let labelsRemoved := ghLabels.filter (fun x => !localLabels.contains x)
        let labelsEq := labelsAdded.isEmpty && labelsRemoved.isEmpty
        let bodyEq := jsTrim localMd == jsTrim (gh.body.getD "")
        ⟨.completed, [RemoteCmd.viewIssue n],
          titleEq && stateEq && labelsEq && bodyEq⟩
    | _ => ⟨.crashed, [], false⟩

/-- The in-sync verdict of the status command for one issue: exact title
equality, sorted label lists compared via their serialization (equal
serializations of string arrays mean equal lists), and the local state
against the lower-cased remote state. -/
def statusInSync (l : JsonObj) (gh : GhIssue) : Bool :=
  let ghLabels := jsSortStrs (gh.labels.map GhLabel.name)
  let localLabels := jsSortStrs (localLabelsOf l)
  let titleMatch : Bool :=
    match alookup l "title" with
    | some (.str s) => s == gh.title
    | _ => false
  let labelsMatch : Bool := localLabels == ghLabels
  let stateMatch : Bool :=
    match alookup l "state" with
    | some (.str s) => s == lowerStr gh.state
    | _ => false
  titleMatch && labelsMatch && stateMatch

/-! Definitions used to state the claims and their witnesses. -/

/-- A local metadata record with a title, a state and a string label
list, the shape the status check reads. -/
def mkLocalMeta (t s : String) (ls : List String) : JsonObj :=
  [("title", .str t), ("state", .str s), ("labels", .arr (ls.map .str))]

/-- Stated from the claim's words, for comparison with syncLabels:
applying a remove-set and an add-set to the current remote label set
drops the removed labels and appends the added ones. -/
def applyLabelOps (current removes adds : List String) : List String :=
  current.filter (fun l => !removes.contains l) ++ adds

/-- Placeholder result used to name concrete pull results. -/
def pullDefault : PullResult := ⟨"", "", [], "", []⟩

/-- A concrete remote snapshot for the concrete instances below. -/
def ghFix : GhIssue :=
  ⟨7, "[CTT] Kafka Setup", "OPEN", [⟨"bug"⟩], [⟨"alice"⟩], some "M1",
    some "Hello World", "2024-01-01T00:00:00Z", "2024-01-02T00:00:00Z"⟩

/-- A directory with an existing record for issue 7. -/
def fsFixExisting : Fs :=
  [("7-kafka.json", .jsonVal
      [("title", .str "Old"), ("hub_projekt", .str "HUB"),
       ("body_file", .str "7-kafka.md")]),
   ("7-kafka.md", .textVal "old\n")]

/-- The file triple findIssueFiles yields for issue 7 above. -/
def filesFix : FoundFiles := ⟨"7-kafka.json", "7-kafka.md", "kafka"⟩

/-- The result of pulling issue 7 in the directory above. -/
def rFixExisting : PullResult := (pullStep fsFixExisting 7 ghFix).getD pullDefault

/-- The result of pulling issue 7 into an empty directory. -/
def rFixNew : PullResult := (pullStep [] 7 ghFix).getD pullDefault

/-- A local record whose body_file key holds the empty string, a falsy
value. -/
def fsFalsyBf : Fs :=
  [("7-kafka.json", .jsonVal [("body_file", .str "")]),
   ("7-kafka.md", .textVal "old\n")]

/-- The result of pulling issue 7 over the falsy body_file record. -/
def rFalsyBf : PullResult := (pullStep fsFalsyBf 7 ghFix).getD pullDefault

/-- A directory holding a metadata file for issue 3 but no body file. -/
def fsNoMd : Fs :=
  [("3-x.json", .jsonVal [("title", .str "T"), ("labels", .arr [])])]

/-- A remote snapshot for issue 3. -/
def ghSmall : GhIssue := ⟨3, "T", "OPEN", [], [], none, none, "", ""⟩

/-- The remote snapshot of the status example: upper-case state, one
label object named bug. -/
def ghStatusEx : GhIssue :=
  ⟨1, "T", "OPEN", [⟨"bug"⟩], [], none, some "", "", ""⟩

/-- A remote snapshot whose title consists only of bracketed tags, so
its slug is empty. -/
def ghEmptySlug : GhIssue :=
  ⟨7, "[CTT] [Migration]", "OPEN", [], [], none, none, "", ""⟩

/-! Character-level lemmas about the toLowerCase model. -/

lemma charOfNat_toNat_shift {t : Nat} (h65 : 65 ≤ t) (h90 : t ≤ 90) :
    (Char.ofNat (t + 32)).toNat = t + 32 := by
  interval_cases t <;> decide

lemma lowerChar_toNat_upper {c : Char} (h65 : 65 ≤ c.toNat) (h90 : c.toNat ≤ 90) :
    (lowerChar c).toNat = c.toNat + 32 := by
  unfold lowerChar
  rw [if_pos ⟨h65, h90⟩]
  exact charOfNat_toNat_shift h65 h90

lemma lowerChar_eq_self {c : Char} (h : ¬(65 ≤ c.toNat ∧ c.toNat ≤ 90)) :
    lowerChar c = c :=
  if_neg h

lemma char_eq_iff_toNat {c d : Char} : c = d ↔ c.toNat = d.toNat := by
  constructor
  · rintro rfl; rfl
  · intro h
    rw [← Char.ofNat_toNat c, ← Char.ofNat_toNat d, h]

lemma lowerChar_eq_iff (d : Char) {c : Char}
    (hlow : d.toNat < 97 ∨ 122 < d.toNat) (hup : d.toNat < 65 ∨ 90 < d.toNat) :
    (lowerChar c = d) ↔ (c = d) := by
  by_cases h : 65 ≤ c.toNat ∧ c.toNat ≤ 90
  · have ht := lowerChar_toNat_upper h.1 h.2
    rw [char_eq_iff_toNat, char_eq_iff_toNat]
    omega
  · rw [lowerChar_eq_self h]

lemma lowerChar_beq (d : Char) {c : Char}
    (hlow : d.toNat < 97 ∨ 122 < d.toNat) (hup : d.toNat < 65 ∨ 90 < d.toNat) :
    (lowerChar c == d) = (c == d) := by
  by_cases h : c = d
  · subst h
    rw [(lowerChar_eq_iff c hlow hup).mpr rfl]
  · have h2 : ¬ lowerChar c = d := fun he => h ((lowerChar_eq_iff d hlow hup).mp he)
    simp [h, h2]

lemma jsIsWs_lowerChar (c : Char) : jsIsWs (lowerChar c) = jsIsWs c := by
  unfold jsIsWs
  rw [lowerChar_beq ' ' (by decide) (by decide),
      lowerChar_beq '\t' (by decide) (by decide),
      lowerChar_beq '\n' (by decide) (by decide),
      lowerChar_beq '\x0d' (by decide) (by decide),
      lowerChar_beq '\x0b' (by decide) (by decide),
      lowerChar_beq '\x0c' (by decide) (by decide)]

/-! The bracket stripper commutes with lower-casing (brackets are not
letters), and so does trim (whitespace is not a letter): hence the
code's order of slugify stages equals the specified order. -/

lemma idxOfRBracket_map_lower (l : List Char) :
    idxOfRBracket (l.map lowerChar) = idxOfRBracket l := by
  induction l with
  | nil => rfl
  | cons c rest ih =>
    simp only [List.map_cons, idxOfRBracket, ih]
    by_cases h : c = ']'
    · rw [if_pos ((lowerChar_eq_iff ']' (by decide) (by decide)).mpr h), if_pos h]
    · rw [if_neg (fun he => h ((lowerChar_eq_iff ']' (by decide) (by decide)).mp he)),
        if_neg h]

lemma stripTagsFuel_map_lower :
    ∀ (fuel : Nat) (l : List Char),
      stripTagsFuel fuel (l.map lowerChar) = (stripTagsFuel fuel l).map lowerChar := by
  intro fuel
  induction fuel with
  | zero => intro l; rfl
  | succ f ih =>
    intro l
    cases l with
    | nil => rfl
    | cons c rest =>
      simp only [List.map_cons, stripTagsFuel]
      by_cases h : c = '['
      · rw [if_pos ((lowerChar_eq_iff '[' (by decide) (by decide)).mpr h), if_pos h,
          idxOfRBracket_map_lower]
        cases hidx : idxOfRBracket rest with
        | some i =>
          show stripTagsFuel f (List.drop (i + 1) (List.map lowerChar rest)) =
            List.map lowerChar (stripTagsFuel f (List.drop (i + 1) rest))
          rw [← List.map_drop]
          exact ih _
        | none => simp
      · rw [if_neg (fun he => h ((lowerChar_eq_iff '[' (by decide) (by decide)).mp he)),
          if_neg h, ih]
        simp

lemma stripTags_map_lower (l : List Char) :
    stripTags (l.map lowerChar) = (stripTags l).map lowerChar := by
  unfold stripTags
  rw [List.length_map]
  exact stripTagsFuel_map_lower _ _

lemma dropWhile_jsIsWs_map_lower (l : List Char) :
    (l.map lowerChar).dropWhile jsIsWs = (l.dropWhile jsIsWs).map lowerChar := by
  induction l with
  | nil => rfl
  | cons c rest ih =>
    simp only [List.map_cons, List.dropWhile_cons, jsIsWs_lowerChar]
    cases h : jsIsWs c <;> simp [h, ih]

lemma trimChars_map_lower (l : List Char) :
    trimChars (l.map lowerChar) = (trimChars l).map lowerChar := by
  unfold trimChars
  rw [dropWhile_jsIsWs_map_lower, ← List.map_reverse, dropWhile_jsIsWs_map_lower,
      ← List.map_reverse]

lemma slugify_eq_slugifySpec (t : String) : slugify t = slugifySpec t := by
  unfold slugify slugifySpec
  rw [stripTags_map_lower, trimChars_map_lower]

/-! Shape invariants of slugify output. -/

/-- Characters a slug may contain: lower-case ASCII letters, digits and
the hyphen. -/
def allowedSlugChar (c : Char) : Bool :=
  isLowerAlnum c || c == '-'

/-- No two adjacent hyphens. -/
def noDoubleHyphen : List Char → Bool
  | [] => true
  | [_] => true
  | a :: b :: rest => !(a == '-' && b == '-') && noDoubleHyphen (b :: rest)

/-- The full well-formedness of a slug: only allowed characters, no
leading or trailing hyphen, no two adjacent hyphens. -/
def slugOk (s : String) : Bool :=
  s.data.all allowedSlugChar && (s.data.head? != some '-') &&
    (s.data.getLast? != some '-') && noDoubleHyphen s.data

lemma isLowerAlnum_ne_hyphen {c : Char} (h : isLowerAlnum c = true) : c ≠ '-' := by
  intro he
  subst he
  simp [isLowerAlnum] at h

lemma noDoubleHyphen_cons {c : Char} {l : List Char}
    (h1 : noDoubleHyphen l = true) (h2 : c ≠ '-' ∨ l.head? ≠ some '-') :
    noDoubleHyphen (c :: l) = true := by
  cases l with
  | nil => rfl
  | cons b rest =>
    have hb : ¬(c = '-' ∧ b = '-') := by
      rcases h2 with h2 | h2
      · exact fun hcb => h2 hcb.1
      · exact fun hcb => h2 (by simp [hcb.2])
    simp only [noDoubleHyphen, Bool.and_eq_true, Bool.not_eq_true']
    constructor
    · simp only [Bool.and_eq_false_iff]
      by_cases hc : c = '-'
      · right
        simp only [beq_eq_false_iff_ne]
        exact fun hbb => hb ⟨hc, hbb⟩
      · left
        simp only [beq_eq_false_iff_ne]
        exact hc
    · exact h1

lemma noDoubleHyphen_tail {c : Char} {l : List Char}
    (h : noDoubleHyphen (c :: l) = true) : noDoubleHyphen l = true := by
  cases l with
  | nil => rfl
  | cons b rest =>
    simp only [noDoubleHyphen, Bool.and_eq_true] at h
    exact h.2

lemma collapseAux_all (b : Bool) (l : List Char) :
    (collapseAux b l).all allowedSlugChar = true := by
  induction l generalizing b with
  | nil => rfl
  | cons c rest ih =>
    by_cases h : isLowerAlnum c = true
    · simp [collapseAux, h, List.all_cons, allowedSlugChar, ih]
    · cases b with
      | true => simpa [collapseAux, h] using ih true
      | false => simp [collapseAux, h, List.all_cons, allowedSlugChar, ih]

lemma collapseAux_true_head (l : List Char) :
    (collapseAux true l).head? ≠ some '-' := by
  induction l with
  | nil => simp [collapseAux]
  | cons c rest ih =>
    by_cases h : isLowerAlnum c = true
    · simp only [collapseAux, h, if_pos, List.head?_cons]
      intro he
      exact isLowerAlnum_ne_hyphen h (by injection he)
    · simpa [collapseAux, h] using ih

lemma collapseAux_noDoubleHyphen (b : Bool) (l : List Char) :
    noDoubleHyphen (collapseAux b l) = true := by
  induction l generalizing b with
  | nil => rfl
  | cons c rest ih =>
    by_cases h : isLowerAlnum c = true
    · simp only [collapseAux, h, if_pos]
      exact noDoubleHyphen_cons (ih false) (Or.inl (isLowerAlnum_ne_hyphen h))
    · cases b with
      | true => simpa [collapseAux, h] using ih true
      | false =>
        simp only [collapseAux, h]
        exact noDoubleHyphen_cons (ih true) (Or.inr (collapseAux_true_head rest))

lemma removeTrailingHyphen_all {p : Char → Bool} :
    ∀ {l : List Char}, l.all p = true → (removeTrailingHyphen l).all p = true
  | [], _ => rfl
  | [c], h => by
    simp only [removeTrailingHyphen]
    by_cases hc : c = '-'
    · rw [if_pos hc]; rfl
    · rw [if_neg hc]; exact h
  | c :: d :: rest, h => by
    simp only [List.all_cons, Bool.and_eq_true] at h
    have hrec := removeTrailingHyphen_all (l := d :: rest)
      (by simp only [List.all_cons, Bool.and_eq_true]; exact ⟨h.2.1, h.2.2⟩)
    simp only [removeTrailingHyphen, List.all_cons, Bool.and_eq_true]
    exact ⟨h.1, hrec⟩

lemma removeTrailingHyphen_head :
    ∀ {l : List Char} {c : Char},
      (removeTrailingHyphen l).head? = some c → l.head? = some c
  | [], c, h => by simp [removeTrailingHyphen] at h
  | [d], c, h => by
    simp only [removeTrailingHyphen] at h
    by_cases hd : d = '-'
    · rw [if_pos hd] at h; simp at h
    · rw [if_neg hd] at h; exact h
  | d :: e :: rest, c, h => by
    simp only [removeTrailingHyphen, List.head?_cons] at h ⊢
    exact h

lemma hyphen_head_of_noDoubleHyphen {d : Char} {rest : List Char}
    (h : noDoubleHyphen (d :: '-' :: rest) = true) : d ≠ '-' := by
  intro hd
  subst hd
  simp [noDoubleHyphen] at h

lemma removeTrailingHyphen_getLast :
    ∀ {l : List Char}, noDoubleHyphen l = true →
      (removeTrailingHyphen l).getLast? ≠ some '-'
  | [], _ => by simp [removeTrailingHyphen]
  | [d], _ => by
    simp only [removeTrailingHyphen]
    by_cases hd : d = '-'
    · rw [if_pos hd]; simp
    · rw [if_neg hd]
      simp only [List.getLast?_singleton, ne_eq, Option.some.injEq]
      exact hd
  | d :: e :: rest, h => by
    have htail : noDoubleHyphen (e :: rest) = true := noDoubleHyphen_tail h
    have ihl := removeTrailingHyphen_getLast (l := e :: rest) htail
    simp only [removeTrailingHyphen]
    cases hx : removeTrailingHyphen (e :: rest) with
    | nil =>
      have hde : e = '-' ∧ rest = [] := by
        cases rest with
        | nil =>
          by_cases he : e = '-'
          · exact ⟨he, rfl⟩
          · rw [show removeTrailingHyphen [e] = if e = '-' then [] else [e] from rfl,
              if_neg he] at hx
            exact absurd hx (by simp)
        | cons f r => simp [removeTrailingHyphen] at hx
      have hd : d ≠ '-' := by
        rcases hde with ⟨he, hr⟩
        subst he; subst hr
        exact hyphen_head_of_noDoubleHyphen h
      simp only [List.getLast?_singleton, ne_eq, Option.some.injEq]
      exact hd
    | cons y ys =>
      rw [List.getLast?_cons_cons]
      rw [hx] at ihl
      exact ihl

lemma removeTrailingHyphen_noDoubleHyphen :
    ∀ {l : List Char}, noDoubleHyphen l = true →
      noDoubleHyphen (removeTrailingHyphen l) = true
  | [], _ => rfl
  | [d], _ => by
    simp only [removeTrailingHyphen]
    by_cases hd : d = '-'
    · rw [if_pos hd]; rfl
    · rw [if_neg hd]; rfl
  | d :: e :: rest, h => by
    have htail : noDoubleHyphen (e :: rest) = true := noDoubleHyphen_tail h
    have ihn := removeTrailingHyphen_noDoubleHyphen (l := e :: rest) htail
    simp only [removeTrailingHyphen]
    apply noDoubleHyphen_cons ihn
    cases hx : removeTrailingHyphen (e :: rest) with
    | nil => simp [hx]
    | cons y ys =>
      have hy : (e :: rest).head? = some y :=
        removeTrailingHyphen_head (by rw [hx]; rfl)
      have hey : e = y := by injection hy
      by_cases he : e = '-'
      · left
        subst he
        exact hyphen_head_of_noDoubleHyphen h
      · right
        rw [List.head?_cons]
        intro hcon
        have hyc : y = '-' := by injection hcon
        exact he (hey.trans hyc)

lemma all_tail {p : Char → Bool} {l : List Char} (h : l.all p = true) :
    l.tail.all p = true := by
  cases l with
  | nil => rfl
  | cons c rest =>
    simp only [List.all_cons, Bool.and_eq_true] at h
    exact h.2

lemma hyphen_second_of_noDoubleHyphen {b : Char} {rest : List Char}
    (h : noDoubleHyphen ('-' :: b :: rest) = true) : b ≠ '-' := by
  intro hb
  subst hb
  simp [noDoubleHyphen] at h

lemma stripEdgeHyphens_ok {l : List Char}
    (hall : l.all allowedSlugChar = true) (hnd : noDoubleHyphen l = true) :
    (stripEdgeHyphens l).all allowedSlugChar = true ∧
    (stripEdgeHyphens l).head? ≠ some '-' ∧
    (stripEdgeHyphens l).getLast? ≠ some '-' ∧
    noDoubleHyphen (stripEdgeHyphens l) = true := by
  unfold stripEdgeHyphens
  by_cases hc : l.head? = some '-'
  · rw [if_pos hc]
    have hall1 : l.tail.all allowedSlugChar = true := all_tail hall
    have hnd1 : noDoubleHyphen l.tail = true := by
      cases l with
      | nil => rfl
      | cons c rest => exact noDoubleHyphen_tail hnd
    have hhead1 : l.tail.head? ≠ some '-' := by
      cases l with
      | nil => simp
      | cons c rest =>
        have hc0 : c = '-' := by
          have := hc
          simp only [List.head?_cons, Option.some.injEq] at this
          exact this
        subst hc0
        cases rest with
        | nil => simp
        | cons b r =>
          simp only [List.tail_cons, List.head?_cons, ne_eq, Option.some.injEq]
          exact hyphen_second_of_noDoubleHyphen hnd
    refine ⟨removeTrailingHyphen_all hall1, ?_, removeTrailingHyphen_getLast hnd1,
      removeTrailingHyphen_noDoubleHyphen hnd1⟩
    intro hcon
    exact hhead1 (removeTrailingHyphen_head hcon)
  · rw [if_neg hc]
    refine ⟨removeTrailingHyphen_all hall, ?_, removeTrailingHyphen_getLast hnd,
      removeTrailingHyphen_noDoubleHyphen hnd⟩
    intro hcon
    exact hc (removeTrailingHyphen_head hcon)

lemma slugify_slugOk (t : String) : slugOk (slugify t) = true := by
  have h := stripEdgeHyphens_ok
    (l := collapseNonAlnum (trimChars (stripTags (t.data.map lowerChar))))
    (collapseAux_all false (trimChars (stripTags (t.data.map lowerChar))))
    (collapseAux_noDoubleHyphen false (trimChars (stripTags (t.data.map lowerChar))))
  simp only [slugOk, slugify, Bool.and_eq_true, bne_iff_ne, ne_eq]
  exact ⟨⟨⟨h.1, h.2.1⟩, h.2.2.1⟩, h.2.2.2⟩

lemma allowedSlugChar_toNat {c : Char} (h : allowedSlugChar c = true) :
    (97 ≤ c.toNat ∧ c.toNat ≤ 122) ∨ (48 ≤ c.toNat ∧ c.toNat ≤ 57) ∨ c.toNat = 45 := by
  simp only [allowedSlugChar, isLowerAlnum, Bool.or_eq_true, Bool.and_eq_true,
    decide_eq_true_eq, beq_iff_eq] at h
  rcases h with (h | h) | h
  · exact Or.inl h
  · exact Or.inr (Or.inl h)
  · subst h
    exact Or.inr (Or.inr rfl)

lemma allowedSlugChar_ne_dot {c : Char} (h : allowedSlugChar c = true) : c ≠ '.' := by
  intro he
  have ht := allowedSlugChar_toNat h
  rw [he] at ht
  revert ht
  decide

lemma allowedSlugChar_not_lineTerm {c : Char} (h : allowedSlugChar c = true) :
    isLineTerm c = false := by
  have ht := allowedSlugChar_toNat h
  simp only [isLineTerm, Bool.or_eq_false_iff, beq_eq_false_iff_ne, ne_eq]
  refine ⟨⟨⟨?_, ?_⟩, ?_⟩, ?_⟩ <;>
    · intro he
      rw [he] at ht
      revert ht
      decide

/-! Association-list algebra for JS objects and the directory model. -/

section AssocLemmas

variable {α : Type}

lemma alookup_upsert_self (o : List (String × α)) (k : String) (v : α) :
    alookup (upsert o k v) k = some v := by
  induction o with
  | nil => simp [upsert, alookup]
  | cons e rest ih =>
    by_cases h : e.1 == k
    · simp [upsert, h, alookup]
    · simp [upsert, h, alookup, ih]

lemma alookup_upsert_ne (o : List (String × α)) {k k' : String} (v : α)
    (h : k' ≠ k) : alookup (upsert o k v) k' = alookup o k' := by
  induction o with
  | nil =>
    have : (k == k') = false := by simp [beq_eq_false_iff_ne]; exact fun he => h he.symm
    simp [upsert, alookup, this]
  | cons e rest ih =>
    by_cases he : e.1 == k
    · have he1 : e.1 = k := by simpa [beq_iff_eq] using he
      have : (k == k') = false := by
        simp only [beq_eq_false_iff_ne]
        exact fun hx => h hx.symm
      have he2 : (e.1 == k') = false := by
        rw [he1]
        exact this
      simp [upsert, he, alookup, this, he2]
    · simp [upsert, he, alookup, ih]

lemma upsert_of_absent {o : List (String × α)} {k : String} (v : α)
    (h : alookup o k = none) : upsert o k v = o ++ [(k, v)] := by
  induction o with
  | nil => rfl
  | cons e rest ih =>
    by_cases he : e.1 == k
    · simp [alookup, he] at h
    · simp only [alookup, he] at h
      simp [upsert, he, ih h]

lemma upsert_self_id {o : List (String × α)} {k : String} {v : α}
    (h : alookup o k = some v) : upsert o k v = o := by
  induction o with
  | nil => simp [alookup] at h
  | cons e rest ih =>
    obtain ⟨a, b⟩ := e
    by_cases he : a = k
    · subst he
      simp only [alookup, beq_self_eq_true, if_true, Option.some.injEq] at h
      subst h
      simp [upsert]
    · have hne : (a == k) = false := by simpa [beq_eq_false_iff_ne] using he
      simp only [alookup, hne, Bool.false_eq_true, if_false] at h
      simp [upsert, hne, ih h]

lemma alookup_append_of_none {o₁ o₂ : List (String × α)} {k : String}
    (h : alookup o₁ k = none) : alookup (o₁ ++ o₂) k = alookup o₂ k := by
  induction o₁ with
  | nil => rfl
  | cons e rest ih =>
    by_cases he : e.1 == k
    · simp [alookup, he] at h
    · simp only [alookup, he] at h
      simp [alookup, he, ih h]

lemma alookup_append_of_some {o₁ o₂ : List (String × α)} {k : String} {v : α}
    (h : alookup o₁ k = some v) : alookup (o₁ ++ o₂) k = some v := by
  induction o₁ with
  | nil => simp [alookup] at h
  | cons e rest ih =>
    by_cases he : e.1 == k
    · simp only [alookup, he, if_pos] at h
      simp [alookup, he, h]
    · simp only [alookup, he] at h
      simp [alookup, he, ih h]

lemma upsert_append_of_absent {o₁ o₂ : List (String × α)} {k : String} (v : α)
    (h : alookup o₁ k = none) : upsert (o₁ ++ o₂) k v = o₁ ++ upsert o₂ k v := by
  induction o₁ with
  | nil => rfl
  | cons e rest ih =>
    by_cases he : e.1 == k
    · simp [alookup, he] at h
    · simp only [alookup, he] at h
      simp [upsert, he, ih h]

lemma alookup_some_mem_names {o : List (String × α)} {k : String} {v : α}
    (h : alookup o k = some v) : k ∈ o.map Prod.fst := by
  induction o with
  | nil => simp [alookup] at h
  | cons e rest ih =>
    by_cases he : e.1 == k
    · have : e.1 = k := by simpa [beq_iff_eq] using he
      simp [this]
    · simp only [alookup, he] at h
      simp [ih h]

lemma alookup_isSome_of_mem_names {o : List (String × α)} {k : String}
    (h : k ∈ o.map Prod.fst) : (alookup o k).isSome = true := by
  induction o with
  | nil => simp at h
  | cons e rest ih =>
    by_cases he : e.1 == k
    · simp [alookup, he]
    · have hne : e.1 ≠ k := by simpa [beq_eq_false_iff_ne] using he
      simp only [List.map_cons, List.mem_cons] at h
      rcases h with h | h
      · exact absurd h.symm hne
      · simp [alookup, he, ih h]

lemma map_fst_upsert_some {o : List (String × α)} {k : String} (v : α)
    (h : (alookup o k).isSome = true) :
    (upsert o k v).map Prod.fst = o.map Prod.fst := by
  induction o with
  | nil => simp [alookup] at h
  | cons e rest ih =>
    by_cases he : e.1 == k
    · have : e.1 = k := by simpa [beq_iff_eq] using he
      simp [upsert, he, this]
    · simp only [alookup, he, if_neg] at h
      simp [upsert, he, ih h]

lemma map_fst_upsert_none {o : List (String × α)} {k : String} (v : α)
    (h : alookup o k = none) :
    (upsert o k v).map Prod.fst = o.map Prod.fst ++ [k] := by
  rw [upsert_of_absent v h]
  simp

lemma fold_upsert_append (g : String → α) :
    ∀ (ks : List String) (o : List (String × α)), ks.Nodup →
      (∀ k ∈ ks, alookup o k = none) →
      ks.foldl (fun acc f => upsert acc f (g f)) o = o ++ ks.map (fun f => (f, g f))
  | [], o, _, _ => by simp
  | k :: ks, o, hnd, habs => by
    simp only [List.foldl_cons, List.map_cons]
    have hk : alookup o k = none := habs k (by simp)
    rw [upsert_of_absent (g k) hk]
    have hnd2 := (List.nodup_cons.mp hnd).2
    have hknot := (List.nodup_cons.mp hnd).1
    rw [fold_upsert_append g ks (o ++ [(k, g k)]) hnd2 ?habs2]
    · simp
    case habs2 =>
      intro k2 hk2
      have h1 : alookup o k2 = none := habs k2 (by simp [hk2])
      rw [alookup_append_of_none h1]
      have hkk : k ≠ k2 := fun he => hknot (he ▸ hk2)
      have hne2 : ((k == k2) : Bool) = false := by
        simp only [beq_eq_false_iff_ne]
        exact hkk
      simp [alookup, hne2]

lemma alookup_map_pair_mem (g : String → α) :
    ∀ {ks : List String} {k : String}, k ∈ ks →
      alookup (ks.map (fun f => (f, g f))) k = some (g k)
  | [], k, h => by simp at h
  | k0 :: ks, k, h => by
    by_cases he : k0 = k
    · simp [alookup, he]
    · have : k ∈ ks := by
        rcases List.mem_cons.mp h with h1 | h1
        · exact absurd h1.symm he
        · exact h1
      have hne : (k0 == k) = false := by simpa [beq_eq_false_iff_ne] using he
      simp only [List.map_cons, alookup, hne]
      rw [if_neg (by simp [hne])]
      exact alookup_map_pair_mem g this

lemma alookup_map_pair_not_mem (g : String → α) :
    ∀ {ks : List String} {k : String}, k ∉ ks →
      alookup (ks.map (fun f => (f, g f))) k = none
  | [], k, _ => rfl
  | k0 :: ks, k, h => by
    have h1 : k0 ≠ k := fun he => h (by simp [he])
    have h2 : k ∉ ks := fun he => h (by simp [he])
    simp only [List.map_cons, alookup]
    rw [if_neg (by simp [h1])]
    exact alookup_map_pair_not_mem g h2

end AssocLemmas

/-! Lemmas about findFirst, the model of Array.prototype.find. -/

lemma findFirst_some {p : String → Bool} :
    ∀ {l : List String} {f : String}, findFirst p l = some f → f ∈ l ∧ p f = true
  | [], f, h => by simp [findFirst] at h
  | x :: rest, f, h => by
    by_cases hx : p x
    · simp only [findFirst, hx, if_pos, Option.some.injEq] at h
      subst h
      exact ⟨by simp, hx⟩
    · simp only [findFirst, hx] at h
      have := findFirst_some (l := rest) h
      exact ⟨by simp [this.1], this.2⟩

lemma findFirst_none {p : String → Bool} :
    ∀ {l : List String}, findFirst p l = none → ∀ f ∈ l, p f = false
  | [], _, f, h => by simp at h
  | x :: rest, h, f, hf => by
    by_cases hx : p x
    · simp [findFirst, hx] at h
    · simp only [findFirst, hx] at h
      rcases List.mem_cons.mp hf with h1 | h1
      · subst h1
        exact Bool.eq_false_iff.mpr hx
      · exact findFirst_none h f h1

lemma findFirst_append_some {p : String → Bool} {l₁ l₂ : List String} {f : String}
    (h : findFirst p l₁ = some f) : findFirst p (l₁ ++ l₂) = some f := by
  induction l₁ with
  | nil => simp [findFirst] at h
  | cons x rest ih =>
    by_cases hx : p x
    · simp only [findFirst, hx, if_pos, Option.some.injEq] at h
      subst h
      simp [findFirst, hx]
    · simp only [findFirst, hx] at h
      simp [findFirst, hx, ih h]

lemma findFirst_append_none {p : String → Bool} {l₁ l₂ : List String}
    (h : findFirst p l₁ = none) : findFirst p (l₁ ++ l₂) = findFirst p l₂ := by
  induction l₁ with
  | nil => rfl
  | cons x rest ih =>
    by_cases hx : p x
    · simp [findFirst, hx] at h
    · simp only [findFirst, hx] at h
      simp [findFirst, hx, ih h]

/-! File-name lemmas: decimal prefixes, the issue-file matcher, and
first-occurrence replacement. -/

lemma digitChar_isDigit {m : Nat} (h : m < 10) : (Nat.digitChar m).isDigit = true := by
  interval_cases m <;> decide

lemma toDigitsCore_digits :
    ∀ (fuel n : Nat) (acc : List Char), (∀ c ∈ acc, c.isDigit = true) →
      ∀ c ∈ Nat.toDigitsCore 10 fuel n acc, c.isDigit = true := by
  intro fuel
  induction fuel with
  | zero =>
    intro n acc hacc c hc
    exact hacc c hc
  | succ f ih =>
    intro n acc hacc c hc
    rw [Nat.toDigitsCore] at hc
    have hstep : ∀ c2 ∈ Nat.digitChar (n % 10) :: acc, c2.isDigit = true := by
      intro c2 hc2
      rcases List.mem_cons.mp hc2 with h1 | h1
      · subst h1
        exact digitChar_isDigit (Nat.mod_lt _ (by decide))
      · exact hacc c2 h1
    by_cases hn : n / 10 = 0
    · rw [if_pos hn] at hc
      exact hstep c hc
    · rw [if_neg hn] at hc
      exact ih (n / 10) (Nat.digitChar (n % 10) :: acc) hstep c hc

lemma toString_nat_digits (n : Nat) : ∀ c ∈ (toString n).data, c.isDigit = true := by
  intro c hc
  have hd : c ∈ Nat.toDigitsCore 10 (n + 1) n [] := by
    simpa [toString, Nat.repr, Nat.toDigits, List.asString] using hc
  exact toDigitsCore_digits (n + 1) n [] (by simp) c hd

lemma isDigit_ne_dot {c : Char} (h : c.isDigit = true) : c ≠ '.' := by
  intro he
  rw [he] at h
  exact absurd h (by decide)

lemma replaceFirstL_clean {pre : List Char} (rep : List Char)
    (h : ∀ c ∈ pre, c ≠ '.') :
    replaceFirstL ('.' :: "json".data) rep (pre ++ '.' :: "json".data) =
      pre ++ rep := by
  induction pre with
  | nil =>
    simp only [List.nil_append, replaceFirstL]
    rw [if_pos (List.isPrefixOf_iff_prefix.mpr (List.prefix_refl _))]
    simp
  | cons c pres ih =>
    have hc : c ≠ '.' := h c (by simp)
    have hdot : ('.' == c) = false := by
      simp only [beq_eq_false_iff_ne, ne_eq]
      exact fun he => hc he.symm
    have hpre : (('.' :: "json".data).isPrefixOf
        (c :: (pres ++ '.' :: "json".data))) = false := by
      simp [List.isPrefixOf, hdot]
    simp only [List.cons_append, replaceFirstL]
    rw [if_neg (by simp [hpre])]
    exact congrArg (c :: ·) (ih (fun c2 h2 => h c2 (by simp [h2])))

lemma replaceFirstL_length (pat rep : List Char) (hp : pat ≠ []) :
    ∀ {l : List Char}, pat <:+: l →
      (replaceFirstL pat rep l).length + pat.length = l.length + rep.length
  | [], hocc => by
    rw [List.infix_nil] at hocc
    exact absurd hocc hp
  | c :: rest, hocc => by
    by_cases hpre : pat.isPrefixOf (c :: rest)
    · have hle : pat.length ≤ (c :: rest).length :=
        (List.isPrefixOf_iff_prefix.mp hpre).length_le
      simp only [replaceFirstL]
      rw [if_pos hpre]
      simp only [List.length_append, List.length_drop, List.length_cons]
      simp only [List.length_cons] at hle
      omega
    · have hrest : pat <:+: rest := by
        rcases List.infix_cons_iff.mp hocc with h1 | h1
        · exact absurd (List.isPrefixOf_iff_prefix.mpr h1) hpre
        · exact h1
      have ih := replaceFirstL_length pat rep hp hrest
      simp only [replaceFirstL]
      rw [if_neg hpre]
      simp only [List.length_cons]
      omega

lemma matchesIssueJson_suffix {n : Nat} {f : String}
    (h : matchesIssueJson n f = true) : ".json".data <:+ f.data := by
  simp only [matchesIssueJson, Bool.and_eq_true] at h
  exact (List.isSuffixOf_iff_suffix.mp h.2.1).trans (List.drop_suffix _ _)

lemma replaceFirst_md_ne {f : String} (h : ".json".data <:+ f.data) :
    replaceFirstStr f ".json" ".md" ≠ f := by
  intro he
  have h2 : (replaceFirstL ".json".data ".md".data f.data).length = f.data.length := by
    rw [show replaceFirstL ".json".data ".md".data f.data =
      (replaceFirstStr f ".json" ".md").data from rfl, he]
  have h3 := replaceFirstL_length ".json".data ".md".data (by decide) h.isInfix
  rw [h2] at h3
  simp only [List.length_cons, String.length] at h3
  omega

lemma matchesIssueJson_new (n : Nat) (slug : String)
    (hall : slug.data.all allowedSlugChar = true) :
    matchesIssueJson n (toString n ++ "-" ++ slug ++ ".json") = true := by
  have hdata : (toString n ++ "-" ++ slug ++ ".json").data =
      (toString n ++ "-").data ++ (slug.data ++ ".json".data) := by
    simp [String.data_append, List.append_assoc]
  simp only [matchesIssueJson, hdata, Bool.and_eq_true]
  refine ⟨?_, ?_, ?_⟩
  · exact List.isPrefixOf_iff_prefix.mpr (List.prefix_append _ _)
  · rw [List.drop_left]
    exact List.isSuffixOf_iff_suffix.mpr (List.suffix_append _ _)
  · rw [List.drop_left]
    have hlen : (slug.data ++ ".json".data).length - 5 = slug.data.length := by
      simp
    rw [hlen, List.take_left]
    rw [List.all_eq_true]
    intro c hc
    have := allowedSlugChar_not_lineTerm (List.all_eq_true.mp hall c hc)
    simp [this]

lemma json_md_append_ne (a : String) : a ++ ".md" ≠ a ++ ".json" := by
  intro he
  have h2 := congrArg (fun s => s.data.length) he
  simp only [String.data_append, List.length_append] at h2
  rw [show (".md" : String).data.length = 3 from rfl,
    show (".json" : String).data.length = 5 from rfl] at h2
  omega

/-! The canonical shape of the merged record pull writes, and its
idempotence. -/

/-- The object literal of pull in closed form: base, present local-only
fields other than body_file, body_file, dates - in this order.  In
particular a body_file spread from the local record is overwritten in
place by the explicit body_file property, which keeps its slot. -/
lemma pullMerged_canonical (n : Nat) (slug : String) (l : JsonObj) (gh : GhIssue) :
    pullMerged n slug l gh =
      pmBase n gh ++ pmOthers l ++
        [("body_file", bodyFileVal l n slug)] ++ pmDates gh := by
  unfold pullMerged pmOthers pmDates
  by_cases h1 : (alookup l "hub_projekt").isSome <;>
  by_cases h2 : (alookup l "typ").isSome <;>
  by_cases h3 : (alookup l "technologie_steckbrief").isSome <;>
  by_cases h4 : (alookup l "related_issues").isSome <;>
  by_cases h5 : (alookup l "body_file").isSome <;>
    simp [localOnlyFields, localOnly4, h1, h2, h3, h4, h5, upsert, pmBase]

lemma alookup_pmOthers_append (l : JsonObj) {k : String} (rest : JsonObj)
    (hk : k ∈ localOnly4) (hnone : alookup rest k = none) :
    alookup (pmOthers l ++ rest) k = alookup l k := by
  unfold pmOthers
  cases hsome : alookup l k with
  | some v =>
    refine alookup_append_of_some ?_
    have hmem : k ∈ localOnly4.filter (fun f => (alookup l f).isSome) :=
      List.mem_filter.mpr ⟨hk, by simp [hsome]⟩
    rw [alookup_map_pair_mem _ hmem, hsome]
    rfl
  | none =>
    have hnm : k ∉ localOnly4.filter (fun f => (alookup l f).isSome) := by
      intro hmem
      have hs := (List.mem_filter.mp hmem).2
      rw [hsome] at hs
      simp at hs
    rw [alookup_append_of_none (alookup_map_pair_not_mem _ hnm), hnone]

lemma alookup_pullMerged_local4 (n : Nat) (slug : String) (l : JsonObj) (gh : GhIssue)
    {k : String} (hk : k ∈ localOnly4) :
    alookup (pullMerged n slug l gh) k = alookup l k := by
  rw [pullMerged_canonical, List.append_assoc, List.append_assoc]
  have hbase : alookup (pmBase n gh) k = none := by fin_cases hk <;> rfl
  rw [alookup_append_of_none hbase]
  refine alookup_pmOthers_append l _ hk ?_
  fin_cases hk <;> rfl

lemma alookup_pullMerged_bf (n : Nat) (slug : String) (l : JsonObj) (gh : GhIssue) :
    alookup (pullMerged n slug l gh) "body_file" = some (bodyFileVal l n slug) := by
  rw [pullMerged_canonical, List.append_assoc, List.append_assoc]
  rw [alookup_append_of_none (by rfl)]
  unfold pmOthers
  have hnm : ("body_file" : String) ∉
      localOnly4.filter (fun f => (alookup l f).isSome) :=
    fun hmem => absurd (List.mem_of_mem_filter hmem) (by decide)
  rw [alookup_append_of_none (alookup_map_pair_not_mem _ hnm)]
  rfl

lemma defaultBodyFile_ne_empty (n : Nat) (slug : String) :
    defaultBodyFile n slug ≠ "" := by
  intro he
  have h2 := congrArg String.data he
  simp [defaultBodyFile, String.data_append] at h2

lemma jsTruthy_bodyFileVal (l : JsonObj) (n : Nat) (slug : String) :
    jsTruthy (bodyFileVal l n slug) = true := by
  unfold bodyFileVal
  cases halk : alookup l "body_file" with
  | none => simp [jsTruthy, bne_iff_ne, defaultBodyFile_ne_empty n slug]
  | some v =>
    show jsTruthy (if jsTruthy v then v else .str (defaultBodyFile n slug)) = true
    by_cases hv : jsTruthy v
    · rw [if_pos hv]
      exact hv
    · rw [if_neg hv]
      simp [jsTruthy, bne_iff_ne, defaultBodyFile_ne_empty n slug]

lemma pmOthers_pullMerged (n : Nat) (slug : String) (l : JsonObj) (gh : GhIssue) :
    pmOthers (pullMerged n slug l gh) = pmOthers l := by
  have hp : ∀ f ∈ localOnly4, alookup (pullMerged n slug l gh) f = alookup l f :=
    fun f hf => alookup_pullMerged_local4 n slug l gh hf
  unfold pmOthers
  rw [List.filter_congr (fun f hf => by rw [hp f hf])]
  apply List.map_congr_left
  intro f hf
  rw [hp f (List.mem_of_mem_filter hf)]

lemma bodyFileVal_pullMerged (n : Nat) (slug slug2 : String) (l : JsonObj)
    (gh : GhIssue) :
    bodyFileVal (pullMerged n slug l gh) n slug2 = bodyFileVal l n slug := by
  show (match alookup (pullMerged n slug l gh) "body_file" with
    | some v => if jsTruthy v then v else .str (defaultBodyFile n slug2)
    | none => .str (defaultBodyFile n slug2)) = bodyFileVal l n slug
  rw [alookup_pullMerged_bf]
  exact if_pos (jsTruthy_bodyFileVal l n slug)

/-- Pulling on top of a just-pulled record reproduces the record exactly,
whatever slug the second pull would have derived. -/
lemma pullMerged_idem (n : Nat) (slug slug2 : String) (l : JsonObj) (gh : GhIssue) :
    pullMerged n slug2 (pullMerged n slug l gh) gh = pullMerged n slug l gh := by
  conv_lhs => rw [pullMerged_canonical]
  rw [pmOthers_pullMerged, bodyFileVal_pullMerged]
  rw [← pullMerged_canonical]

/-! Inversion lemmas for findIssueFiles and pullStep. -/

lemma slugOk_all {s : String} (h : slugOk s = true) :
    s.data.all allowedSlugChar = true := by
  simp only [slugOk, Bool.and_eq_true] at h
  exact h.1.1.1

lemma findIssueFiles_some_inv {fs : Fs} {n : Nat} {files : FoundFiles}
    (h : findIssueFiles fs n = some files) :
    findFirst (matchesIssueJson n) (fsNames fs) = some files.json ∧
    files.md = replaceFirstStr files.json ".json" ".md" ∧
    files.slug = replaceFirstStr (stripIdPrefix files.json) ".json" "" := by
  unfold findIssueFiles at h
  cases hf : findFirst (matchesIssueJson n) (fsNames fs) with
  | none =>
    rw [hf] at h
    simp at h
  | some j =>
    rw [hf] at h
    simp only [Option.some.injEq] at h
    subst h
    exact ⟨rfl, rfl, rfl⟩

lemma findIssueFiles_none_inv {fs : Fs} {n : Nat}
    (h : findIssueFiles fs n = none) :
    findFirst (matchesIssueJson n) (fsNames fs) = none := by
  unfold findIssueFiles at h
  cases hf : findFirst (matchesIssueJson n) (fsNames fs) with
  | none => rfl
  | some j =>
    rw [hf] at h
    simp at h

lemma pullStep_found {fs : Fs} {n : Nat} (gh : GhIssue) {files : FoundFiles}
    {l : JsonObj}
    (hf : findIssueFiles fs n = some files)
    (hr : fsRead fs files.json = some (.jsonVal l)) :
    pullStep fs n gh = some
      ⟨files.json, files.md, pullMerged n files.slug l gh,
        writeMdContent (gh.body.getD ""),
        fsWrite (fsWrite fs files.json (.jsonVal (pullMerged n files.slug l gh)))
          files.md (.textVal (writeMdContent (gh.body.getD "")))⟩ := by
  simp only [pullStep, hf, hr]

lemma pullStep_found_read {fs : Fs} {n : Nat} {gh : GhIssue} {files : FoundFiles}
    {r : PullResult}
    (hf : findIssueFiles fs n = some files)
    (hp : pullStep fs n gh = some r) :
    ∃ l, fsRead fs files.json = some (.jsonVal l) := by
  simp only [pullStep, hf] at hp
  cases hread : fsRead fs files.json with
  | none =>
    rw [hread] at hp
    simp at hp
  | some v =>
    cases v with
    | jsonVal l => exact ⟨l, rfl⟩
    | textVal t =>
      rw [hread] at hp
      simp at hp

lemma pre_no_dot (n : Nat) (slug : String)
    (hall : slug.data.all allowedSlugChar = true) :
    ∀ c ∈ (toString n ++ "-").data ++ slug.data, c ≠ '.' := by
  intro c hc
  rcases List.mem_append.mp hc with hc1 | hc1
  · rw [String.data_append] at hc1
    rcases List.mem_append.mp hc1 with hc2 | hc2
    · exact isDigit_ne_dot (toString_nat_digits n c hc2)
    · have hc3 : c = '-' := by simpa using hc2
      subst hc3
      decide
  · exact allowedSlugChar_ne_dot (List.all_eq_true.mp hall c hc1)

lemma replaceFirst_new_json_md (n : Nat) (slug : String)
    (hall : slug.data.all allowedSlugChar = true) :
    replaceFirstStr (toString n ++ "-" ++ slug ++ ".json") ".json" ".md" =
      toString n ++ "-" ++ slug ++ ".md" := by
  apply String.ext
  show replaceFirstL ".json".data ".md".data (toString n ++ "-" ++ slug ++ ".json").data =
    (toString n ++ "-" ++ slug ++ ".md").data
  have hL : (toString n ++ "-" ++ slug ++ ".json").data =
      ((toString n ++ "-").data ++ slug.data) ++ '.' :: "json".data := by
    simp [String.data_append]
  have hR : (toString n ++ "-" ++ slug ++ ".md").data =
      ((toString n ++ "-").data ++ slug.data) ++ ".md".data := by
    simp [String.data_append]
  rw [hL, hR, show (".json" : String).data = '.' :: "json".data from rfl]
  exact replaceFirstL_clean ".md".data (pre_no_dot n slug hall)

lemma fsNames_fsWrite_some {fs : Fs} {k : String} (v : FsVal)
    (h : (fsRead fs k).isSome = true) : fsNames (fsWrite fs k v) = fsNames fs :=
  map_fst_upsert_some v h

lemma fsNames_fsWrite_none {fs : Fs} {k : String} (v : FsVal)
    (h : fsRead fs k = none) : fsNames (fsWrite fs k v) = fsNames fs ++ [k] :=
  map_fst_upsert_none v h

/-- Unfolding of pullStep when no local record exists. -/
lemma pullStep_none {fs : Fs} {n : Nat} (gh : GhIssue)
    (hf : findIssueFiles fs n = none) :
    pullStep fs n gh = some
      ⟨toString n ++ "-" ++ slugify gh.title ++ ".json",
        toString n ++ "-" ++ slugify gh.title ++ ".md",
        pullMerged n (slugify gh.title)
          (match fsRead fs (toString n ++ "-" ++ slugify gh.title ++ ".json") with
            | some (.jsonVal j) => j
            | _ => []) gh,
        writeMdContent (gh.body.getD ""),
        fsWrite
          (fsWrite fs (toString n ++ "-" ++ slugify gh.title ++ ".json")
            (.jsonVal (pullMerged n (slugify gh.title)
              (match fsRead fs (toString n ++ "-" ++ slugify gh.title ++ ".json") with
                | some (.jsonVal j) => j
                | _ => []) gh)))
          (toString n ++ "-" ++ slugify gh.title ++ ".md")
          (.textVal (writeMdContent (gh.body.getD "")))⟩ := by
  simp only [pullStep, hf]

/-- A second pull right after a pull of an existing record reproduces
exactly the same result. -/
lemma pullStep_idem_found (fs : Fs) (n : Nat) (gh : GhIssue) (files : FoundFiles)
    (l : JsonObj)
    (hf : findIssueFiles fs n = some files)
    (hread : fsRead fs files.json = some (.jsonVal l)) :
    pullStep
      (fsWrite (fsWrite fs files.json (.jsonVal (pullMerged n files.slug l gh)))
        files.md (.textVal (writeMdContent (gh.body.getD "")))) n gh =
    some ⟨files.json, files.md, pullMerged n files.slug l gh,
      writeMdContent (gh.body.getD ""),
      fsWrite (fsWrite fs files.json (.jsonVal (pullMerged n files.slug l gh)))
        files.md (.textVal (writeMdContent (gh.body.getD "")))⟩ := by
  obtain ⟨hffirst, hmd, hslug⟩ := findIssueFiles_some_inv hf
  have hsome := findFirst_some hffirst
  have hjmatch : matchesIssueJson n files.json = true := hsome.2
  have hjmem : files.json ∈ fsNames fs := hsome.1
  have hmdne : files.md ≠ files.json := by
    rw [hmd]
    exact replaceFirst_md_ne (matchesIssueJson_suffix hjmatch)
  set merged := pullMerged n files.slug l gh with hmergedDef
  set mdt := writeMdContent (gh.body.getD "") with hmdtDef
  set fsA := fsWrite fs files.json (.jsonVal merged) with hfsADef
  set fs1 := fsWrite fsA files.md (.textVal mdt) with hfs1Def
  have hn1 : fsNames fsA = fsNames fs :=
    map_fst_upsert_some _ (alookup_isSome_of_mem_names hjmem)
  have hff1 : findFirst (matchesIssueJson n) (fsNames fs1) = some files.json := by
    cases hmd2 : fsRead fsA files.md with
    | some v =>
      have hnn : fsNames fs1 = fsNames fs := by
        rw [hfs1Def]
        rw [fsNames_fsWrite_some _ (by rw [hmd2]; rfl), hn1]
      rw [hnn, hffirst]
    | none =>
      have hnn : fsNames fs1 = fsNames fs ++ [files.md] := by
        rw [hfs1Def]
        rw [fsNames_fsWrite_none _ hmd2, hn1]
      rw [hnn]
      exact findFirst_append_some hffirst
  have hfif1 : findIssueFiles fs1 n = some files := by
    simp only [findIssueFiles, hff1]
    rw [← hmd, ← hslug]
  have hread1 : fsRead fs1 files.json = some (.jsonVal merged) := by
    show alookup (upsert fsA files.md (.textVal mdt)) files.json = _
    rw [alookup_upsert_ne _ _ (Ne.symm hmdne)]
    exact alookup_upsert_self _ _ _
  have hstep := pullStep_found gh hfif1 hread1
  rw [← hmdtDef] at hstep
  rw [hmergedDef] at hstep
  rw [pullMerged_idem] at hstep
  rw [← hmergedDef] at hstep
  have hw1 : fsWrite fs1 files.json (.jsonVal merged) = fs1 := upsert_self_id hread1
  rw [hw1] at hstep
  have hmdr : fsRead fs1 files.md = some (.textVal mdt) := alookup_upsert_self _ _ _
  have hw2 : fsWrite fs1 files.md (.textVal mdt) = fs1 := upsert_self_id hmdr
  rw [hw2] at hstep
  exact hstep

/-- A second pull right after a pull that created a new record reproduces
exactly the same result. -/
lemma pullStep_idem_new (fs : Fs) (n : Nat) (gh : GhIssue) (l0 : JsonObj)
    (hf : findIssueFiles fs n = none)
    (hl0 : (match fsRead fs (toString n ++ "-" ++ slugify gh.title ++ ".json") with
      | some (.jsonVal j) => j
      | _ => ([] : JsonObj)) = l0) :
    pullStep
      (fsWrite
        (fsWrite fs (toString n ++ "-" ++ slugify gh.title ++ ".json")
          (.jsonVal (pullMerged n (slugify gh.title) l0 gh)))
        (toString n ++ "-" ++ slugify gh.title ++ ".md")
        (.textVal (writeMdContent (gh.body.getD "")))) n gh =
    some ⟨toString n ++ "-" ++ slugify gh.title ++ ".json",
      toString n ++ "-" ++ slugify gh.title ++ ".md",
      pullMerged n (slugify gh.title) l0 gh,
      writeMdContent (gh.body.getD ""),
      fsWrite
        (fsWrite fs (toString n ++ "-" ++ slugify gh.title ++ ".json")
          (.jsonVal (pullMerged n (slugify gh.title) l0 gh)))
        (toString n ++ "-" ++ slugify gh.title ++ ".md")
        (.textVal (writeMdContent (gh.body.getD "")))⟩ := by
  have hall : (slugify gh.title).data.all allowedSlugChar = true :=
    slugOk_all (slugify_slugOk gh.title)
  set slug := slugify gh.title with hslugDef
  set jn := toString n ++ "-" ++ slug ++ ".json" with hjnDef
  set mn := toString n ++ "-" ++ slug ++ ".md" with hmnDef
  set merged := pullMerged n slug l0 gh with hmergedDef
  set mdt := writeMdContent (gh.body.getD "") with hmdtDef
  set fsA := fsWrite fs jn (.jsonVal merged) with hfsADef
  set fs1 := fsWrite fsA mn (.textVal mdt) with hfs1Def
  have hjmatch : matchesIssueJson n jn = true := matchesIssueJson_new n slug hall
  have hjnotmem : jn ∉ fsNames fs := by
    intro hmem
    have hfalse := findFirst_none (findIssueFiles_none_inv hf) jn hmem
    rw [hjmatch] at hfalse
    exact absurd hfalse (by decide)
  have halkjn : alookup fs jn = none := by
    cases halk : alookup fs jn with
    | none => rfl
    | some v => exact absurd (alookup_some_mem_names halk) hjnotmem
  have hmnnejn : mn ≠ jn := json_md_append_ne (toString n ++ "-" ++ slug)
  have hn1 : fsNames fsA = fsNames fs ++ [jn] := fsNames_fsWrite_none _ halkjn
  have hffbase : findFirst (matchesIssueJson n) (fsNames fs ++ [jn]) = some jn := by
    rw [findFirst_append_none (findIssueFiles_none_inv hf)]
    simp [findFirst, hjmatch]
  have hff1 : findFirst (matchesIssueJson n) (fsNames fs1) = some jn := by
    cases hmd2 : fsRead fsA mn with
    | some v =>
      have hnn : fsNames fs1 = fsNames fs ++ [jn] := by
        rw [hfs1Def]
        rw [fsNames_fsWrite_some _ (by rw [hmd2]; rfl), hn1]
      rw [hnn]
      exact hffbase
    | none =>
      have hnn : fsNames fs1 = (fsNames fs ++ [jn]) ++ [mn] := by
        rw [hfs1Def]
        rw [fsNames_fsWrite_none _ hmd2, hn1]
      rw [hnn]
      exact findFirst_append_some hffbase
  have hrepl : replaceFirstStr jn ".json" ".md" = mn := by
    rw [hjnDef, hmnDef, hslugDef]
    exact replaceFirst_new_json_md n (slugify gh.title)
      (slugOk_all (slugify_slugOk gh.title))
  have hfif1 : findIssueFiles fs1 n =
      some ⟨jn, mn, replaceFirstStr (stripIdPrefix jn) ".json" ""⟩ := by
    simp only [findIssueFiles, hff1]
    rw [hrepl]
  have hread1 : fsRead fs1 jn = some (.jsonVal merged) := by
    show alookup (upsert fsA mn (.textVal mdt)) jn = _
    rw [alookup_upsert_ne _ _ (Ne.symm hmnnejn)]
    exact alookup_upsert_self _ _ _
  have hstep := pullStep_found gh hfif1 hread1
  rw [← hmdtDef] at hstep
  rw [hmergedDef] at hstep
  rw [pullMerged_idem] at hstep
  rw [← hmergedDef] at hstep
  have hw1 : fsWrite fs1 jn (.jsonVal merged) = fs1 := upsert_self_id hread1
  rw [hw1] at hstep
  have hmdr : fsRead fs1 mn = some (.textVal mdt) := alookup_upsert_self _ _ _
  have hw2 : fsWrite fs1 mn (.textVal mdt) = fs1 := upsert_self_id hmdr
  rw [hw2] at hstep
  exact hstep

/-- Pull is idempotent at the level of whole results: a pull right after
a successful pull of the same number against the same snapshot finds the
same files, writes the same bytes, and leaves the directory untouched. -/
lemma pullStep_idem (fs : Fs) (n : Nat) (gh : GhIssue) (r : PullResult)
    (h : pullStep fs n gh = some r) : pullStep r.fsAfter n gh = some r := by
  cases hf : findIssueFiles fs n with
  | some files =>
    obtain ⟨l, hread⟩ := pullStep_found_read hf h
    have hX := pullStep_found gh hf hread
    rw [h] at hX
    injection hX with hX
    rw [hX]
    exact pullStep_idem_found fs n gh files l hf hread
  | none =>
    have hX := pullStep_none gh hf
    rw [h] at hX
    injection hX with hX
    rw [hX]
    exact pullStep_idem_new fs n gh _ hf rfl

/-! Supporting lemmas for the status check and label sync claims. -/

lemma toStrList_map_str (ls : List String) :
    toStrList (.arr (ls.map Json.str)) = ls := by
  induction ls with
  | nil => rfl
  | cons s rest ih =>
    simp only [List.map_cons, toStrList, List.filterMap_cons]
    exact congrArg (s :: ·) ih

lemma statusInSync_mk (t s : String) (ls : List String) (gh : GhIssue) :
    statusInSync (mkLocalMeta t s ls) gh =
      ((t == gh.title) &&
        (jsSortStrs ls == jsSortStrs (gh.labels.map GhLabel.name)) &&
        (s == lowerStr gh.state)) := by
  unfold statusInSync mkLocalMeta localLabelsOf
  simp [alookup, jsTruthy, toStrList_map_str]

lemma alookup_pullMerged_localOnly (n : Nat) (slug : String) (l : JsonObj)
    (gh : GhIssue) {k : String} {v : Json} (hk : k ∈ localOnlyFields)
    (hv : alookup l k = some v) (hbf : k ≠ "body_file" ∨ jsTruthy v = true) :
    alookup (pullMerged n slug l gh) k = some v := by
  have hk2 : k ∈ localOnly4 ∨ k = "body_file" := by
    rw [show localOnlyFields = localOnly4 ++ ["body_file"] from rfl] at hk
    rcases List.mem_append.mp hk with h | h
    · exact Or.inl h
    · exact Or.inr (by simpa using h)
  rcases hk2 with hk4 | hkbf
  · rw [alookup_pullMerged_local4 n slug l gh hk4, hv]
  · subst hkbf
    rw [alookup_pullMerged_bf]
    rcases hbf with hne | htr
    · exact absurd rfl hne
    · simp only [bodyFileVal, hv]
      rw [if_pos htr]

/-! The claims. -/

/-- C1 (counterexample): the claim fails as stated.  With an existing
local record whose body_file key holds the empty string - a falsy value
- the pull does not preserve that key's value: the written record holds
the default file name 7-kafka.md instead of the empty string, although
body_file is in the configured local-only field list. -/
theorem claim_C1_counterexample :
    ("body_file" ∈ localOnlyFields) ∧
    alookup [("body_file", Json.str "")] "body_file" = some (.str "") ∧
    pullStep fsFalsyBf 7 ghFix = some rFalsyBf ∧
    alookup rFalsyBf.jsonObj "body_file" = some (.str "7-kafka.md") ∧
    ("" : String) ≠ "7-kafka.md" :=
  ⟨by decide, rfl, rfl, rfl, by decide⟩

/-- C1 (amended): for every pull of an identifier whose local metadata
record already exists, every configured local-only key present in the
local record is written back with its identical value, for any remote
snapshot - except body_file, which is preserved only when its value is
truthy (a falsy body_file is replaced by the default file name). -/
theorem claim_C1_amended (fs : Fs) (n : Nat) (gh : GhIssue) (files : FoundFiles)
    (l : JsonObj) (r : PullResult) (k : String) (v : Json)
    (hf : findIssueFiles fs n = some files)
    (hl : fsRead fs files.json = some (.jsonVal l))
    (hp : pullStep fs n gh = some r)
    (hk : k ∈ localOnlyFields)
    (hv : alookup l k = some v)
    (hbf : k ≠ "body_file" ∨ jsTruthy v = true) :
    alookup r.jsonObj k = some v := by
  have hX := pullStep_found gh hf hl
  rw [hp] at hX
  injection hX with hX
  rw [hX]
  exact alookup_pullMerged_localOnly n files.slug l gh hk hv hbf

/-- C1 (witness): the key hub_projekt with value HUB survives a concrete
pull of an existing record unchanged. -/
theorem claim_C1_witness :
    alookup rFixExisting.jsonObj "hub_projekt" = some (.str "HUB") :=
  claim_C1_amended fsFixExisting 7 ghFix filesFix
    [("title", .str "Old"), ("hub_projekt", .str "HUB"),
     ("body_file", .str "7-kafka.md")]
    rFixExisting "hub_projekt" (.str "HUB") rfl rfl rfl (by decide) rfl
    (Or.inl (by decide))

/-- C2: for a local record with a lower-case state - the only form the
data model stores - the status check reports in sync exactly when the
title matches exactly, the state matches case-insensitively and the
sorted label lists match. -/
theorem claim_C2 (t s : String) (ls : List String) (gh : GhIssue)
    (hlow : lowerStr s = s) :
    statusInSync (mkLocalMeta t s ls) gh = true ↔
      (t = gh.title ∧ lowerStr s = lowerStr gh.state ∧
        jsSortStrs ls = jsSortStrs (gh.labels.map GhLabel.name)) := by
  rw [statusInSync_mk]
  simp only [Bool.and_eq_true, beq_iff_eq]
  constructor
  · rintro ⟨⟨h1, h2⟩, h3⟩
    refine ⟨h1, ?_, h2⟩
    rw [hlow]
    exact h3
  · rintro ⟨h1, h2, h3⟩
    refine ⟨⟨h1, h3⟩, ?_⟩
    rw [← hlow]
    exact h2

/-- C2 (witness): the claim's example.  Local title T, state open,
labels bug against remote title T, state OPEN, label objects [bug] is
reported in sync. -/
theorem claim_C2_witness :
    statusInSync (mkLocalMeta "T" "open" ["bug"]) ghStatusEx = true :=
  (claim_C2 "T" "open" ["bug"] ghStatusEx (by decide)).mpr
    ⟨rfl, by decide, by decide⟩

/-- C3 (counterexample): the claim fails as stated.  writeMd leaves a
content that already ends in newlines unchanged, so the written file can
end with two newlines rather than exactly one. -/
theorem claim_C3_counterexample :
    writeMdContent "a\n\n" = "a\n\n" ∧ trailingNewlines "a\n\n" = 2 ∧
    trailingNewlines (writeMdContent "a\n\n") ≠ 1 :=
  ⟨rfl, by decide, by decide⟩

/-- C3 (amended): the body-file write appends exactly one newline when
the content does not already end with one and writes the content
unchanged otherwise; the written file therefore always ends with at
least one newline, but an existing run of trailing newlines is kept, not
collapsed to one. -/
theorem claim_C3_amended (c : String) :
    writeMdContent c = (if jsEndsWithNewline c then c else c ++ "\n") ∧
    (writeMdContent c).data.getLast? = some '\n' := by
  refine ⟨rfl, ?_⟩
  unfold writeMdContent
  by_cases h : jsEndsWithNewline c
  · rw [if_pos h]
    simpa [jsEndsWithNewline] using h
  · rw [if_neg h]
    rw [String.data_append, show ("\n" : String).data = ['\n'] from rfl]
    exact List.getLast?_concat _

/-- C4 (counterexample): the claim fails as stated.  A push whose
metadata file exists but whose body file is missing does not terminate:
it completes normally and still issues a remote edit (a remote update),
merely omitting the body flag. -/
theorem claim_C4_counterexample :
    findIssueFiles fsNoMd 3 = some ⟨"3-x.json", "3-x.md", "x"⟩ ∧
    fsRead fsNoMd "3-x.md" = none ∧
    (pushRun fsNoMd 3 ghSmall).outcome = .completed ∧
    (pushRun fsNoMd 3 ghSmall).remoteOps.any isRemoteUpdate = true :=
  ⟨rfl, rfl, rfl, rfl⟩

/-- C4 (amended): push and diff invoked on an identifier without a
metadata file exit immediately with code 1 and issue no remote call at
all; diff with a metadata file but no body file dies on the failed read
(non-zero exit) before any remote call; only push tolerates a missing
body file. -/
theorem claim_C4_amended :
    (∀ (fs : Fs) (n : Nat) (gh : GhIssue), findIssueFiles fs n = none →
      pushRun fs n gh = ⟨.exited 1, []⟩) ∧
    (∀ (fs : Fs) (n : Nat) (gh : GhIssue), findIssueFiles fs n = none →
      diffRun fs n gh = ⟨.exited 1, [], false⟩) ∧
    (∀ (fs : Fs) (n : Nat) (gh : GhIssue) (files : FoundFiles) (l : JsonObj),
      findIssueFiles fs n = some files →
      fsRead fs files.json = some (.jsonVal l) →
      fsReadText fs files.md = none →
      (diffRun fs n gh).outcome = .crashed ∧ (diffRun fs n gh).remoteOps = []) := by
  refine ⟨?_, ?_, ?_⟩
  · intro fs n gh h
    simp [pushRun, h]
  · intro fs n gh h
    simp [diffRun, h]
  · intro fs n gh files l h1 h2 h3
    simp [diffRun, h1, h2, h3]

/-- C4 (witness): concrete instances of the three amended statements. -/
theorem claim_C4_witness :
    pushRun [] 1 ghSmall = ⟨.exited 1, []⟩ ∧
    diffRun [] 1 ghSmall = ⟨.exited 1, [], false⟩ ∧
    (diffRun fsNoMd 3 ghSmall).outcome = .crashed ∧
    (diffRun fsNoMd 3 ghSmall).remoteOps = [] :=
  ⟨claim_C4_amended.1 [] 1 ghSmall rfl,
   claim_C4_amended.2.1 [] 1 ghSmall rfl,
   (claim_C4_amended.2.2 fsNoMd 3 ghSmall ⟨"3-x.json", "3-x.md", "x"⟩
      [("title", .str "T"), ("labels", .arr [])] rfl rfl rfl).1,
   (claim_C4_amended.2.2 fsNoMd 3 ghSmall ⟨"3-x.json", "3-x.md", "x"⟩
      [("title", .str "T"), ("labels", .arr [])] rfl rfl rfl).2⟩

/-- C5: the computed add-set is exactly the local labels minus the
remote labels, the computed remove-set is exactly the remote labels
minus the local labels, and applying both against the remote set yields
exactly the local set (as sets of labels). -/
theorem claim_C5 (L R : List String) (x : String) :
    (x ∈ syncLabelsToAdd L R ↔ x ∈ L ∧ x ∉ R) ∧
    (x ∈ syncLabelsToRemove L R ↔ x ∈ R ∧ x ∉ L) ∧
    (x ∈ applyLabelOps R (syncLabelsToRemove L R) (syncLabelsToAdd L R) ↔ x ∈ L) := by
  have hc : ∀ (ys : List String) (a : String), (ys.contains a = false) ↔ a ∉ ys := by
    intro ys a
    simp
  refine ⟨?_, ?_, ?_⟩
  · simp [syncLabelsToAdd, List.mem_filter]
  · simp [syncLabelsToRemove, List.mem_filter]
  · simp only [applyLabelOps, syncLabelsToAdd, syncLabelsToRemove, List.mem_append,
      List.mem_filter, Bool.not_eq_true', hc]
    constructor
    · rintro ((⟨hR, hnot⟩) | ⟨hL2, hnot⟩)
      · by_contra hnL
        exact hnot ⟨hR, fun hmem => hnL hmem⟩
      · exact hL2
    · intro hL2
      by_cases hR : x ∈ R
      · exact Or.inl ⟨hR, fun hmem => absurd hL2 hmem.2⟩
      · exact Or.inr ⟨hL2, hR⟩

/-- C6: pulling an identifier twice against the same remote snapshot is
byte-stable: the second pull finds the files written by the first one,
writes the identical metadata object (hence the identical serialization
and key order) and the identical body bytes to the identical paths, and
leaves the directory exactly as the first pull left it. -/
theorem claim_C6 (fs : Fs) (n : Nat) (gh : GhIssue) (r : PullResult)
    (h : pullStep fs n gh = some r) :
    pullStep r.fsAfter n gh = some r ∧
    writeJsonContent ((pullStep r.fsAfter n gh).getD pullDefault).jsonObj =
      writeJsonContent r.jsonObj ∧
    ((pullStep r.fsAfter n gh).getD pullDefault).mdText = r.mdText := by
  have h2 := pullStep_idem fs n gh r h
  rw [h2]
  exact ⟨rfl, rfl, rfl⟩

/-- C6 (witness): a concrete double pull, over an existing record. -/
theorem claim_C6_witness :
    pullStep rFixExisting.fsAfter 7 ghFix = some rFixExisting :=
  (claim_C6 fsFixExisting 7 ghFix rFixExisting rfl).1

/-- C7: a pull of an identifier that already has a local record writes
to exactly the file names found on disk, whatever the remote snapshot
and in particular whatever its title: the metadata path is the existing
file and the body path is derived from that file name, not from the
title. -/
theorem claim_C7 (fs : Fs) (n : Nat) (gh : GhIssue) (files : FoundFiles)
    (r : PullResult)
    (hf : findIssueFiles fs n = some files)
    (hp : pullStep fs n gh = some r) :
    r.jsonName = files.json ∧ r.mdName = files.md ∧ files.json ∈ fsNames fs := by
  obtain ⟨l, hread⟩ := pullStep_found_read hf hp
  have hX := pullStep_found gh hf hread
  rw [hp] at hX
  injection hX with hX
  rw [hX]
  exact ⟨rfl, rfl, (findFirst_some (findIssueFiles_some_inv hf).1).1⟩

/-- C7 (witness): a concrete pull of an existing record, against a
remote title that differs from the one the slug came from, writes to the
pre-existing file names. -/
theorem claim_C7_witness :
    rFixExisting.jsonName = "7-kafka.json" ∧ rFixExisting.mdName = "7-kafka.md" ∧
    "7-kafka.json" ∈ fsNames fsFixExisting :=
  claim_C7 fsFixExisting 7 ghFix filesFix rFixExisting rfl rfl

/-- C8: slugify agrees with the specified pipeline - strip every
bracketed tag group, trim, lower-case, collapse every run of
non-alphanumeric characters to one hyphen, strip leading and trailing
hyphens - on every title, and in particular maps the title
[CTT] [Migration] Kafka to the slug kafka. -/
theorem claim_C8 :
    slugify "[CTT] [Migration] Kafka" = "kafka" ∧
    ∀ t : String, slugify t = slugifySpec t :=
  ⟨by decide, slugify_eq_slugifySpec⟩

/-- C9 (counterexample): the claim fails as stated.  diff on an
identifier without a local record does not exit 0: it terminates through
process.exit(1). -/
theorem claim_C9_counterexample :
    (diffRun [] 1 ghSmall).outcome = .exited 1 ∧ (1 : Nat) ≠ 0 :=
  ⟨rfl, by decide⟩

/-- C9 (amended): when the local metadata and body files exist (and the
remote fetch succeeds), a diff invocation always completes with exit
status 0, whether or not differences are found - the computed report
never influences the exit path; without a local record it exits 1. -/
theorem claim_C9_amended (fs : Fs) (n : Nat) (gh : GhIssue) (files : FoundFiles)
    (l : JsonObj) (v : String)
    (h1 : findIssueFiles fs n = some files)
    (h2 : fsRead fs files.json = some (.jsonVal l))
    (h3 : fsReadText fs files.md = some v) :
    (diffRun fs n gh).outcome = .completed := by
  simp [diffRun, h1, h2, h3]

/-- C9 (witness): a concrete diff over a complete local record
completes, here with a remote snapshot that differs from the local
record. -/
theorem claim_C9_witness :
    (diffRun fsFixExisting 7 ghFix).outcome = .completed :=
  claim_C9_amended fsFixExisting 7 ghFix filesFix
    [("title", .str "Old"), ("hub_projekt", .str "HUB"),
     ("body_file", .str "7-kafka.md")] "old\n" rfl rfl rfl

/-- C10: every slug consists only of lower-case ASCII letters, digits
and hyphens, has no leading or trailing hyphen and no two adjacent
hyphens; it can be empty - a title of only bracketed tags yields the
empty slug - and a pull creating a record for such a title names its
files with the bare id-and-hyphen prefix. -/
theorem claim_C10 :
    (∀ t : String, slugOk (slugify t) = true) ∧
    slugify "[CTT] [Migration]" = "" ∧
    (pullStep [] 7 ghEmptySlug).map PullResult.jsonName = some "7-.json" ∧
    (pullStep [] 7 ghEmptySlug).map PullResult.mdName = some "7-.md" :=
  ⟨slugify_slugOk, by decide, rfl, rfl⟩

end GhSync
